import Mathlib

/-!
Shallow embedding of the conversation-thread reconstruction core of
`src/app/sources/telegram.py` (`TelegramFetcher.process_messages_to_chunks`,
lines 208-514), together with theorems settling the frozen claims about it.

Timestamps: the Python code calls the library function
`datetime.fromisoformat` and compares `timedelta` values.  The pipeline here
is parameterized over `parse : String → Option Int` (seconds; `none` models a
`ValueError`), so every universally quantified theorem holds for any parsing
semantics, in particular the library's.  For concrete runs we instantiate
`parse` with `isoParse`, a faithful model of `fromisoformat` on strings of the
exact shape `YYYY-MM-DDTHH:MM:SS+00:00` (returning POSIX seconds) that
returns `none` on everything else; concrete inputs below only use strings of
that shape or clearly invalid ones, where `isoParse` agrees with the library.
-/

/-- Canonical message record, mirroring the per-message dict built at
ingestion in `TelegramFetcher.fetch_messages` (telegram.py lines 167-175). -/
structure Msg where
  id : Nat
  date : String
  sender_id : Int
  text : String
  reply_to_msg_id : Option Nat
  original_reply_to : Option Nat
  inferred_reply_type : Option String
deriving Repr, DecidableEq

/-- Group info fields actually consumed by the processing core. -/
structure GroupInfo where
  group_id : Int
  group_name : String
deriving Repr, DecidableEq

/-- One emitted conversation chunk (telegram.py lines 476-488). -/
structure Chunk where
  id : String
  source : String
  group_id : Int
  group_name : String
  root_message_id : Nat
  start_date : String
  end_date : String
  participant_count : Nat
  message_count_original : Nat
  turn_count_condensed : Nat
  content : String
deriving Repr, DecidableEq

/-- The `processing_parameters` record (telegram.py lines 497-501).  The code
stores the time threshold as minutes (`total_seconds() / 60`); we keep the
seconds value, which carries the same information and is never re-read. -/
structure Params where
  time_threshold_seconds : Int
  id_threshold_proximity : Int
  min_participants_per_chunk : Int
deriving Repr, DecidableEq

/-- The `processing_stats` record.  Python returns a dict; on the empty-input
early return (lines 229-235) only two of the seven keys are present, so the
five sometimes-missing fields are `Option`-typed (`none` = key absent). -/
structure Stats where
  total_messages_fetched : Nat
  same_user_chained_count : Option Nat
  aba_inferred_count : Option Nat
  proximity_inferred_count : Option Nat
  total_raw_threads_built : Option Nat
  threads_filtered_out : Option Nat
  final_chunks_exported : Nat
deriving Repr, DecidableEq

/-- The full result record of `process_messages_to_chunks`.  `group_info` and
`processing_parameters` are `Option`-typed because the empty-input early
return omits those keys entirely. -/
structure ProcResult where
  group_info : Option GroupInfo
  processing_parameters : Option Params
  processing_stats : Stats
  conversation_chunks : List Chunk
deriving Repr, DecidableEq

/-- Ids of a message list, in list order. -/
def idsOf (msgs : List Msg) : List Nat := msgs.map (·.id)

/-- Set-style insert on a list: add at the front only if absent (models
Python `set.add`; the list length then equals the set's cardinality). -/
def insertIfAbsent {α : Type} [DecidableEq α] (x : α) (l : List α) : List α :=
  if x ∈ l then l else x :: l

/-- First-occurrence deduplication (models the key order of a Python dict
comprehension, where re-assigning a key keeps its original position). -/
def dedupFirstGo (seen : List Nat) : List Nat → List Nat
  | [] => []
  | x :: xs =>
    if x ∈ seen then dedupFirstGo seen xs
    else x :: dedupFirstGo (x :: seen) xs

/-- Keys of `message_by_id` in insertion order (telegram.py line 239). -/
def keysOf (msgs : List Msg) : List Nat := dedupFirstGo [] (idsOf msgs)

/-- Value of `message_by_id[i]`: the dict comprehension maps each id to the
last message dict carrying it (telegram.py line 239). -/
def lookupLast (msgs : List Msg) (i : Nat) : Option Msg :=
  msgs.reverse.find? (fun m => m.id == i)

/-- Set a reply link with an inference reason tag. -/
def linkTo (t : Nat) (reason : String) (m : Msg) : Msg :=
  { m with reply_to_msg_id := some t, inferred_reply_type := some reason }

/-- Condition of the same-user chaining pass (telegram.py lines 250-254):
same sender, `b` has no original reply, no link yet, and the target id is in
the fetched batch. -/
def sameUserCond (avail : List Nat) (a b : Msg) : Bool :=
  a.sender_id == b.sender_id && b.original_reply_to == none &&
    b.reply_to_msg_id == none && avail.contains a.id

/-- Step 3, same-user chaining (telegram.py lines 245-257): walk adjacent
pairs left to right; the updated right element becomes the next pair's left
element.  Returns the rewritten list and the number of links created. -/
def pass1Go (avail : List Nat) (a : Msg) : List Msg → List Msg × Nat
  | [] => ([a], 0)
  | b :: rest =>
    let fire := sameUserCond avail a b
    let b' := if fire then linkTo a.id "same_user_consecutive" b else b
    let r := pass1Go avail b' rest
    (a :: r.1, (if fire then 1 else 0) + r.2)

/-- Same-user chaining over a whole list. -/
def pass1 (avail : List Nat) : List Msg → List Msg × Nat
  | [] => ([], 0)
  | a :: rest => pass1Go avail a rest

/-- Condition of the A-B-A pass (telegram.py lines 274-280): senders A,B,A,
`m2` was *originally* an explicit reply to `m1`, `m3` has no link yet, and
`m2`'s id is in the fetched batch. -/
def abaCond (avail : List Nat) (m1 m2 m3 : Msg) : Bool :=
  m1.sender_id == m3.sender_id && !(m1.sender_id == m2.sender_id) &&
    m2.original_reply_to == some m1.id && m3.reply_to_msg_id == none &&
    avail.contains m2.id

/-- Step 4, A-B-A inference (telegram.py lines 264-283): walk consecutive
triples left to right, writing the third element. -/
def pass2Go (avail : List Nat) (m1 m2 : Msg) : List Msg → List Msg × Nat
  | [] => ([m1, m2], 0)
  | m3 :: rest =>
    let fire := abaCond avail m1 m2 m3
    let m3' := if fire then linkTo m2.id "aba" m3 else m3
    let r := pass2Go avail m2 m3' rest
    (m1 :: r.1, (if fire then 1 else 0) + r.2)

/-- A-B-A inference over a whole list. -/
def pass2 (avail : List Nat) : List Msg → List Msg × Nat
  | m1 :: m2 :: rest => pass2Go avail m1 m2 rest
  | ms => (ms, 0)

/-- Condition of the time/proximity pass (telegram.py lines 299-311):
different senders, no link yet; then time diff in `(0, time_threshold]`
(`false` when either timestamp fails to parse, the `except ValueError`
branch), id diff in `(0, id_threshold]`, and the target id in the batch. -/
def proxCond (parse : String → Option Int) (tth idth : Int) (avail : List Nat)
    (p c : Msg) : Bool :=
  !(p.sender_id == c.sender_id) && c.reply_to_msg_id == none &&
    (match parse c.date, parse p.date with
     | some tc, some tp => decide (0 < tc - tp) && decide (tc - tp ≤ tth)
     | _, _ => false) &&
    decide (0 < (c.id : Int) - (p.id : Int)) &&
    decide ((c.id : Int) - (p.id : Int) ≤ idth) &&
    avail.contains p.id

/-- Step 5, time/proximity inference (telegram.py lines 290-314). -/
def pass3Go (parse : String → Option Int) (tth idth : Int) (avail : List Nat)
    (p : Msg) : List Msg → List Msg × Nat
  | [] => ([p], 0)
  | c :: rest =>
    let fire := proxCond parse tth idth avail p c
    let c' := if fire then linkTo p.id "time_proximity" c else c
    let r := pass3Go parse tth idth avail c' rest
    (p :: r.1, (if fire then 1 else 0) + r.2)

/-- Time/proximity inference over a whole list. -/
def pass3 (parse : String → Option Int) (tth idth : Int) (avail : List Nat) :
    List Msg → List Msg × Nat
  | [] => ([], 0)
  | p :: rest => pass3Go parse tth idth avail p rest

/-- Output of the three inference passes plus the per-pass link counts. -/
structure PassOut where
  msgs : List Msg
  same_user_chained_count : Nat
  aba_inferred_count : Nat
  proximity_inferred_count : Nat
deriving Repr, DecidableEq

/-- Steps 3-5 in order, sharing the `available_ids` of the input batch
(telegram.py line 240; ids are never rewritten by the passes). -/
def runPasses (parse : String → Option Int) (tth idth : Int)
    (msgs : List Msg) : PassOut :=
  let avail := idsOf msgs
  let r1 := pass1 avail msgs
  let r2 := pass2 avail r1.1
  let r3 := pass3 parse tth idth avail r2.1
  ⟨r3.1, r1.2, r2.2, r3.2⟩

/-- Resolved reply target used to build `replies_to_map` (telegram.py lines
322-326): `if target_id and target_id in available_ids` — a target of `0` is
falsy in Python and counts as no target. -/
def resolvedTarget (avail : List Nat) (m : Msg) : Option Nat :=
  match m.reply_to_msg_id with
  | some t => if t != 0 && avail.contains t then some t else none
  | none => none

/-- Parent of an id in the final reply graph: the resolved target of the
message `message_by_id` holds for it. -/
def parentR (msgs : List Msg) (x : Nat) : Option Nat :=
  match lookupLast msgs x with
  | some m => resolvedTarget (idsOf msgs) m
  | none => none

/-- Children of id `x` in `replies_to_map`, visited in ascending order
(`sorted(replies_to_map.get(...))`, telegram.py line 408). -/
def childrenOf (msgs : List Msg) (x : Nat) : List Nat :=
  List.insertionSort (· ≤ ·)
    ((keysOf msgs).filter (fun k => parentR msgs k == some x))

/-- Membership test `msg_id not in replies_to_map` (telegram.py line 346):
the defaultdict holds a key exactly when some message resolves to it. -/
def hasReplies (msgs : List Msg) (x : Nat) : Bool :=
  !(childrenOf msgs x).isEmpty

/-- Root candidacy test `not target_id or target_id not in available_ids`
(telegram.py line 338), with Python falsiness of a zero id. -/
def rootishTarget (avail : List Nat) (m : Msg) : Bool :=
  match m.reply_to_msg_id with
  | none => true
  | some t => t == 0 || !(avail.contains t)

/-- Root detection with the interjection filter (telegram.py lines 334-354):
a candidate is dropped when the next message in the batch has a different
sender, no reply link, a reason other than `time_proximity`, the candidate
has no replies, and the (parsable) time gap to the next message is at most
30 seconds. -/
def isRootId (parse : String → Option Int) (msgs : List Msg) (k : Nat) : Bool :=
  match lookupLast msgs k with
  | none => false
  | some msg =>
    if !(rootishTarget (idsOf msgs) msg) then false
    else
      match msgs.findIdx? (fun m => m.id == k) with
      | none => true
      | some i =>
        if h : i + 1 < msgs.length then
          let nextMsg := msgs[i + 1]
          if nextMsg.sender_id != msg.sender_id &&
             nextMsg.reply_to_msg_id == none &&
             nextMsg.inferred_reply_type != some "time_proximity" &&
             !(hasReplies msgs k) then
            match parse nextMsg.date, parse msg.date with
            | some tb, some ta => decide (30 < tb - ta)
            | _, _ => true
          else true
        else true

/-- Root message ids, ascending (telegram.py lines 329-356). -/
def rootIds (parse : String → Option Int) (msgs : List Msg) : List Nat :=
  List.insertionSort (· ≤ ·) ((keysOf msgs).filter (isRootId parse msgs))

/-- Per-node interjection check inside the BFS (telegram.py lines 388-401):
skip a non-root node that does not reply to the previously admitted node,
has a different sender, a reason other than `time_proximity`, and a
(parsable) time gap of at most 30 seconds to that node. -/
def bfsInterject (parse : String → Option Int) (msgs : List Msg)
    (rootId c : Nat) (m : Msg) (threadRev : List Nat) : Bool :=
  !threadRev.isEmpty && !(c == rootId) &&
    (match threadRev with
     | [] => false
     | prevId :: _ =>
       match lookupLast msgs prevId with
       | none => false
       | some pm =>
         if m.reply_to_msg_id != some prevId &&
            m.sender_id != pm.sender_id &&
            m.inferred_reply_type != some "time_proximity" then
           match parse m.date, parse pm.date with
           | some tc, some tp => decide (tc - tp ≤ 30)
           | _, _ => false
         else false)

/-- The BFS `while queue:` loop of thread construction (telegram.py lines
374-411).  State: queue, `visited_in_this_thread`, admitted thread ids in
reverse order, participant set, and the run-wide `processed_in_threads` set.
The loop is fuel-bounded: each iteration pops one queue element, and
elements are pushed only once per first visit of a node (plus the initial
root), so `2 * |messages| + 2` fuel is never exhausted; every theorem below
about the loop holds for every fuel value. -/
def bfsLoop (parse : String → Option Int) (msgs : List Msg) (rootId : Nat) :
    Nat → List Nat → List Nat → List Nat → List Int → List Nat →
    List Nat × List Nat
  | 0, _, _, threadRev, _, processed => (threadRev.reverse, processed)
  | _ + 1, [], _, threadRev, _, processed => (threadRev.reverse, processed)
  | fuel + 1, c :: rest, visited, threadRev, parts, processed =>
    if !((idsOf msgs).contains c) || visited.contains c then
      bfsLoop parse msgs rootId fuel rest visited threadRev parts processed
    else
      match lookupLast msgs c with
      | none => bfsLoop parse msgs rootId fuel rest visited threadRev parts processed
      | some m =>
        let parts' := insertIfAbsent m.sender_id parts
        if 20 ≤ threadRev.length || 5 < parts'.length then
          (threadRev.reverse, processed)
        else if bfsInterject parse msgs rootId c m threadRev then
          bfsLoop parse msgs rootId fuel rest visited threadRev parts' processed
        else
          bfsLoop parse msgs rootId fuel
            (rest ++ (childrenOf msgs c).filter (fun r => !((c :: visited).contains r)))
            (c :: visited) (c :: threadRev) parts' (c :: processed)

/-- Fuel that the BFS loop never exhausts (see `bfsLoop`). -/
def bfsFuel (msgs : List Msg) : Nat := 2 * msgs.length + 2

/-- One thread construction from a root (telegram.py lines 369-411). -/
def runRoot (parse : String → Option Int) (msgs : List Msg)
    (processed : List Nat) (rootId : Nat) : List Nat × List Nat :=
  bfsLoop parse msgs rootId (bfsFuel msgs) [rootId] [] [] [] processed

/-- The outer loop over roots (telegram.py lines 365-417): skip roots
already consumed, keep nonempty threads, and return each thread's messages
sorted ascending by id. -/
def buildThreadsGo (parse : String → Option Int) (msgs : List Msg) :
    List Nat → List Nat → List (List Msg) → List (List Msg)
  | [], _, acc => acc.reverse
  | r :: rs, processed, acc =>
    if processed.contains r then buildThreadsGo parse msgs rs processed acc
    else
      let out := runRoot parse msgs processed r
      if out.1.isEmpty then buildThreadsGo parse msgs rs out.2 acc
      else
        buildThreadsGo parse msgs rs out.2
          (((List.insertionSort (· ≤ ·) out.1).filterMap (lookupLast msgs)) :: acc)

/-- Step 6, thread building (telegram.py lines 318-419). -/
def buildThreads (parse : String → Option Int) (msgs : List Msg) :
    List (List Msg) :=
  buildThreadsGo parse msgs (rootIds parse msgs) [] []

/-- Step 7's condensing walk (telegram.py lines 437-464): maximal runs of
consecutive same-sender messages, texts joined by newline.  Folding from the
right produces the same maximal runs as the source's left-to-right walk. -/
def condense : List Msg → List (Int × String)
  | [] => []
  | m :: rest =>
    match condense rest with
    | [] => [(m.sender_id, m.text)]
    | (s, t) :: gs =>
      if m.sender_id == s then (s, m.text ++ "\n" ++ t) :: gs
      else (m.sender_id, m.text) :: (s, t) :: gs

/-- Anonymous labeling of condensed blocks (telegram.py lines 443-447):
senders get `user0`, `user1`, ... in first-seen order within the thread. -/
def labelBlocks : List (Int × String) → List (Int × String) → Nat →
    List (String × String)
  | [], _, _ => []
  | (s, t) :: rest, umap, ctr =>
    match umap.lookup s with
    | some u => (u, t) :: labelBlocks rest umap ctr
    | none =>
      ("user" ++ toString ctr, t) ::
        labelBlocks rest ((s, "user" ++ toString ctr) :: umap) (ctr + 1)

/-- Python `str.strip()` on the final chunk text (telegram.py line 487):
remove leading and trailing whitespace. -/
def stripWS (s : String) : String :=
  String.mk (((s.data.dropWhile Char.isWhitespace).reverse.dropWhile
    Char.isWhitespace).reverse)

/-- Distinct senders of a thread in the order Python's `set` accumulates
them during the condensing walk; its length is `len(participants)`. -/
def distinctSenders (thread : List Msg) : List Int :=
  thread.foldl (fun acc m => insertIfAbsent m.sender_id acc) []

/-- Step 7, one thread to one chunk (telegram.py lines 427-488): `none` when
the thread is empty or is filtered out for having fewer than
`min_participants` distinct senders. -/
def threadToChunk (ginfo : GroupInfo) (min_participants : Int)
    (thread : List Msg) : Option Chunk :=
  match thread with
  | [] => none
  | first :: rest =>
    let blocks := condense thread
    let parts := distinctSenders thread
    if ((parts.length : Int) < min_participants) then none
    else
      let labeled := labelBlocks blocks [] 0
      some {
        id := "tg_" ++ toString ginfo.group_id ++ "_" ++ toString first.id
        source := "telegram"
        group_id := ginfo.group_id
        group_name := ginfo.group_name
        root_message_id := first.id
        start_date := first.date
        end_date := ((first :: rest).getLast?.getD first).date
        participant_count := parts.length
        message_count_original := thread.length
        turn_count_condensed := labeled.length
        content := stripWS (String.intercalate "\n"
          (labeled.map (fun p => p.1 ++ ": " ++ p.2))) }

/-- Whether a (nonempty) thread is counted by `filtered_out_count`
(telegram.py lines 429, 467-469). -/
def filteredOutThread (min_participants : Int) (t : List Msg) : Bool :=
  !t.isEmpty && decide (((distinctSenders t).length : Int) < min_participants)

/-- The whole `process_messages_to_chunks` transform (telegram.py lines
208-514), parameterized over the timestamp parser (see the file header). -/
def process_messages_to_chunks (parse : String → Option Int)
    (messages : List Msg) (group_info : GroupInfo)
    (time_threshold id_threshold min_participants : Int) : ProcResult :=
  if messages.isEmpty then
    { group_info := none
      processing_parameters := none
      processing_stats := {
        total_messages_fetched := 0
        same_user_chained_count := none
        aba_inferred_count := none
        proximity_inferred_count := none
        total_raw_threads_built := none
        threads_filtered_out := none
        final_chunks_exported := 0 }
      conversation_chunks := [] }
  else
    let po := runPasses parse time_threshold id_threshold messages
    let threads := buildThreads parse po.msgs
    let chunks := threads.filterMap (threadToChunk group_info min_participants)
    { group_info := some group_info
      processing_parameters := some {
        time_threshold_seconds := time_threshold
        id_threshold_proximity := id_threshold
        min_participants_per_chunk := min_participants }
      processing_stats := {
        total_messages_fetched := messages.length
        same_user_chained_count := some po.same_user_chained_count
        aba_inferred_count := some po.aba_inferred_count
        proximity_inferred_count := some po.proximity_inferred_count
        total_raw_threads_built := some threads.length
        threads_filtered_out := some ((threads.filter (filteredOutThread min_participants)).length)
        final_chunks_exported := chunks.length }
      conversation_chunks := chunks }

/-- Numeric value of a decimal digit character. -/
def digitVal (c : Char) : Option Nat :=
  if c.isDigit then some (c.toNat - 48) else none

/-- Two-digit decimal value. -/
def twoDigits (a b : Char) : Option Nat := do
  let x ← digitVal a
  let y ← digitVal b
  pure (10 * x + y)

/-- Leap-year test of the proleptic Gregorian calendar. -/
def isLeap (y : Nat) : Bool :=
  (y % 4 == 0 && y % 100 != 0) || y % 400 == 0

/-- Number of days in a month, as `datetime` validates it. -/
def daysInMonth (y m : Nat) : Nat :=
  if m == 2 then (if isLeap y then 29 else 28)
  else if m == 4 || m == 6 || m == 9 || m == 11 then 30
  else 31

/-- Days from 1970-01-01 to year/month/day of the proleptic Gregorian
calendar (the standard civil-days computation; all intermediate divisions
act on nonnegative numbers for the valid years 1-9999). -/
def daysFromCivil (y m d : Nat) : Int :=
  let y' : Int := if m ≤ 2 then (y : Int) - 1 else (y : Int)
  let era : Int := y' / 400
  let yoe : Int := y' - era * 400
  let mp : Int := ((m : Int) + 9) % 12
  let doy : Int := (153 * mp + 2) / 5 + (d : Int) - 1
  let doe : Int := yoe * 365 + yoe / 4 - yoe / 100 + doy
  era * 146097 + doe - 719468

/-- Model of `datetime.fromisoformat` followed by conversion to a POSIX
timestamp, on strings of the exact shape `YYYY-MM-DDTHH:MM:SS+00:00` with
calendar validation; everything else is mapped to `none` (a `ValueError`).
Concrete inputs in this file only use strings of this shape or strings the
library also rejects, so the model agrees with the library on them. -/
def isoParse (s : String) : Option Int :=
  match s.toList with
  | [y1, y2, y3, y4, '-', o1, o2, '-', d1, d2, 'T',
     h1, h2, ':', n1, n2, ':', s1, s2, '+', '0', '0', ':', '0', '0'] => do
    let a ← twoDigits y1 y2
    let b ← twoDigits y3 y4
    let mo ← twoDigits o1 o2
    let dy ← twoDigits d1 d2
    let hh ← twoDigits h1 h2
    let mi ← twoDigits n1 n2
    let ss ← twoDigits s1 s2
    let yr := 100 * a + b
    if 1 ≤ yr && 1 ≤ mo && mo ≤ 12 && 1 ≤ dy && dy ≤ daysInMonth yr mo &&
       hh ≤ 23 && mi ≤ 59 && ss ≤ 59 then
      pure (daysFromCivil yr mo dy * 86400 + (hh : Int) * 3600 +
        (mi : Int) * 60 + (ss : Int))
    else none
  | _ => none

/-! ### Shared concrete inputs for counterexamples and witnesses -/

/-- A concrete message value. -/
def mkMsg (i : Nat) (d : String) (s : Int) (t : String) (r : Option Nat) : Msg :=
  ⟨i, d, s, t, r, r, none⟩

/-- The three-message batch of the spec's worked example (section 8): two
messages from sender 100 followed by an explicit reply from sender 200,
with the three timestamps as parameters. -/
def exampleBatch (d1 d2 d3 : String) : List Msg :=
  [mkMsg 1 d1 100 "hi" none, mkMsg 2 d2 100 "there" none,
   mkMsg 3 d3 200 "hey" (some 1)]

/-- A concrete group-info record. -/
def gInfo : GroupInfo := ⟨10, "G"⟩

/-! ### C2 -/

/-- C2 (counterexample): on the empty batch the code's early return
(telegram.py lines 227-235) omits `group_info`, `processing_parameters`,
and five of the seven stats keys, so the claimed full output record is not
produced. -/
theorem C2_counterexample :
    ¬ ((process_messages_to_chunks isoParse [] gInfo 300 5 2).group_info.isSome ∧
      (process_messages_to_chunks isoParse [] gInfo 300 5 2).processing_parameters.isSome ∧
      (process_messages_to_chunks isoParse [] gInfo 300 5 2).processing_stats.same_user_chained_count.isSome ∧
      (process_messages_to_chunks isoParse [] gInfo 300 5 2).processing_stats.aba_inferred_count.isSome ∧
      (process_messages_to_chunks isoParse [] gInfo 300 5 2).processing_stats.proximity_inferred_count.isSome ∧
      (process_messages_to_chunks isoParse [] gInfo 300 5 2).processing_stats.total_raw_threads_built.isSome ∧
      (process_messages_to_chunks isoParse [] gInfo 300 5 2).processing_stats.threads_filtered_out.isSome) := by
  decide

/-- C2 (amended): the empty batch yields the defined empty result without
failing — an empty chunk list with `total_messages_fetched` and
`final_chunks_exported` both zero — but the early return contains only
those two stats keys and omits `group_info`, `processing_parameters` and
the other five stats keys. -/
theorem C2_empty_input_result (parse : String → Option Int)
    (g : GroupInfo) (tth idth minp : Int) :
    process_messages_to_chunks parse [] g tth idth minp =
      ⟨none, none, ⟨0, none, none, none, none, none, 0⟩, []⟩ := rfl

/-! ### C6 -/

/-- C6: `process_messages_to_chunks` is a pure function of its input batch
and configuration, so two runs on identical input and configuration yield
identical output records (the Python code's only internal iteration orders
— dict and set traversal — are themselves deterministic and are modelled by
the same pure functions here). -/
theorem C6_deterministic (parse : String → Option Int) (msgs : List Msg)
    (g : GroupInfo) (tth idth minp : Int) :
    process_messages_to_chunks parse msgs g tth idth minp =
      process_messages_to_chunks parse msgs g tth idth minp := rfl

/-! ### C1 -/

/-- The chunk the pipeline emits for `exampleBatch` when message 3 survives
the interjection filter. -/
def exampleChunk (g : GroupInfo) (d1 d3 : String) : Chunk :=
  ⟨"tg_" ++ toString g.group_id ++ "_" ++ toString (1 : Nat), "telegram",
    g.group_id, g.group_name, 1, d1, d3, 2, 3, 2,
    "user0: hi\nthere\nuser1: hey"⟩

/-- C1 (counterexample): on a concrete accepted thread the emitted chunk has
`id = "tg_10_1"` (telegram.py line 477 hard-codes the `tg_` prefix) while
its `source` field is `"telegram"`, so the id does not equal
`source ++ "_" ++ group_id ++ "_" ++ root_message_id` (= `"telegram_10_1"`). -/
theorem C1_counterexample :
    ¬ (∀ c ∈ (process_messages_to_chunks isoParse (exampleBatch "x" "y" "z")
          gInfo 300 5 2).conversation_chunks,
        c.id = c.source ++ "_" ++ toString c.group_id ++ "_" ++
          toString c.root_message_id) := by
  decide

/-- C1 (amended): for every accepted thread the emitted chunk's id equals
the string `tg_` followed by the chunk's own `group_id` and
`root_message_id` separated by underscores — the literal prefix `tg_`
rather than the chunk's `source` field, whose value is `"telegram"`. -/
theorem C1_chunk_id_format (parse : String → Option Int) (msgs : List Msg)
    (g : GroupInfo) (tth idth minp : Int) (c : Chunk)
    (hc : c ∈ (process_messages_to_chunks parse msgs g tth idth
      minp).conversation_chunks) :
    c.source = "telegram" ∧
      c.id = "tg_" ++ toString c.group_id ++ "_" ++ toString c.root_message_id := by
  unfold process_messages_to_chunks at hc
  split at hc
  · exact absurd hc (List.not_mem_nil c)
  · simp only [List.mem_filterMap] at hc
    obtain ⟨t, ht, hsome⟩ := hc
    unfold threadToChunk at hsome
    match t, hsome with
    | first :: rest, hsome =>
      dsimp only at hsome
      split at hsome
      · exact absurd hsome (by simp)
      · injection hsome with h
        subst h
        exact ⟨rfl, rfl⟩

/-- C1 (witness): the amended theorem applied to a concrete run that emits
one chunk. -/
theorem C1_witness :
    exampleChunk gInfo "x" "z" ∈ (process_messages_to_chunks isoParse
      (exampleBatch "x" "y" "z") gInfo 300 5 2).conversation_chunks ∧
      ((exampleChunk gInfo "x" "z").source = "telegram" ∧
        (exampleChunk gInfo "x" "z").id = "tg_" ++
          toString (exampleChunk gInfo "x" "z").group_id ++ "_" ++
          toString (exampleChunk gInfo "x" "z").root_message_id) :=
  ⟨by decide, C1_chunk_id_format isoParse (exampleBatch "x" "y" "z") gInfo
    300 5 2 _ (by decide)⟩

/-! ### Basic facts about the link-writing primitive and pass structure -/

@[simp] theorem linkTo_id (t : Nat) (r : String) (m : Msg) :
    (linkTo t r m).id = m.id := rfl

@[simp] theorem linkTo_reply (t : Nat) (r : String) (m : Msg) :
    (linkTo t r m).reply_to_msg_id = some t := rfl

@[simp] theorem linkTo_reason (t : Nat) (r : String) (m : Msg) :
    (linkTo t r m).inferred_reply_type = some r := rfl

theorem pass1Go_ids (avail : List Nat) (a : Msg) (l : List Msg) :
    idsOf (pass1Go avail a l).1 = a.id :: idsOf l := by
  induction l generalizing a with
  | nil => rfl
  | cons b rest ih =>
    unfold pass1Go
    dsimp only
    rw [idsOf, List.map_cons, ← idsOf, ih]
    by_cases h : sameUserCond avail a b = true <;> simp [h, idsOf]

theorem pass1_ids (avail : List Nat) (l : List Msg) :
    idsOf (pass1 avail l).1 = idsOf l := by
  cases l with
  | nil => rfl
  | cons a rest => exact pass1Go_ids avail a rest

theorem pass2Go_ids (avail : List Nat) (m1 m2 : Msg) (l : List Msg) :
    idsOf (pass2Go avail m1 m2 l).1 = m1.id :: m2.id :: idsOf l := by
  induction l generalizing m1 m2 with
  | nil => rfl
  | cons m3 rest ih =>
    unfold pass2Go
    dsimp only
    rw [idsOf, List.map_cons, ← idsOf, ih]
    by_cases h : abaCond avail m1 m2 m3 = true <;> simp [h, idsOf]

theorem pass2_ids (avail : List Nat) (l : List Msg) :
    idsOf (pass2 avail l).1 = idsOf l := by
  match l with
  | [] => rfl
  | [a] => rfl
  | m1 :: m2 :: rest => exact pass2Go_ids avail m1 m2 rest

theorem pass3Go_ids (parse : String → Option Int) (tth idth : Int)
    (avail : List Nat) (p : Msg) (l : List Msg) :
    idsOf (pass3Go parse tth idth avail p l).1 = p.id :: idsOf l := by
  induction l generalizing p with
  | nil => rfl
  | cons c rest ih =>
    unfold pass3Go
    dsimp only
    rw [idsOf, List.map_cons, ← idsOf, ih]
    by_cases h : proxCond parse tth idth avail p c = true <;> simp [h, idsOf]

theorem pass3_ids (parse : String → Option Int) (tth idth : Int)
    (avail : List Nat) (l : List Msg) :
    idsOf (pass3 parse tth idth avail l).1 = idsOf l := by
  cases l with
  | nil => rfl
  | cons a rest => exact pass3Go_ids parse tth idth avail a rest

theorem runPasses_ids (parse : String → Option Int) (tth idth : Int)
    (msgs : List Msg) :
    idsOf (runPasses parse tth idth msgs).msgs = idsOf msgs := by
  unfold runPasses
  dsimp only
  rw [pass3_ids, pass2_ids, pass1_ids]

/-! ### C9 -/

/-- C9: when either timestamp of an adjacent pair fails to parse, the
proximity step treats the pair as not close in time: the pair's right
message passes through with no `time_proximity` link, no error occurs, and
the pass continues with the remaining pairs (telegram.py lines 302-306,
the `except ValueError` branch). -/
theorem C9_unparsable_not_close (parse : String → Option Int)
    (tth idth : Int) (avail : List Nat) (p c : Msg) (rest : List Msg)
    (h : parse p.date = none ∨ parse c.date = none) :
    pass3Go parse tth idth avail p (c :: rest) =
      (p :: (pass3Go parse tth idth avail c rest).1,
        (pass3Go parse tth idth avail c rest).2) := by
  have hfire : proxCond parse tth idth avail p c = false := by
    unfold proxCond
    rcases h with h | h
    · cases hc : parse c.date <;>
        simp [h, hc, Bool.and_false, Bool.false_and]
    · simp [h, Bool.and_false, Bool.false_and]
  simp [pass3Go, hfire]

/-- C9 (witness): a concrete adjacent pair whose left timestamp is not
ISO-parsable is skipped while the rest of the pass still runs. -/
theorem C9_witness :
    (isoParse "bad" = none ∨
      isoParse "2023-01-01T12:00:00+00:00" = none) ∧
    pass3Go isoParse 300 5 [1, 2]
        (mkMsg 1 "bad" 100 "a" none)
        [mkMsg 2 "2023-01-01T12:00:00+00:00" 200 "b" none] =
      (mkMsg 1 "bad" 100 "a" none ::
          (pass3Go isoParse 300 5 [1, 2]
            (mkMsg 2 "2023-01-01T12:00:00+00:00" 200 "b" none) []).1,
        (pass3Go isoParse 300 5 [1, 2]
          (mkMsg 2 "2023-01-01T12:00:00+00:00" 200 "b" none) []).2) :=
  ⟨Or.inl (by decide),
    C9_unparsable_not_close isoParse 300 5 [1, 2] _ _ _ (Or.inl (by decide))⟩

/-! ### C3 -/

/-- The backward-reference property the claim asserts of every resolved
reply link: an in-batch target must be strictly smaller than the id of the
message carrying the link. -/
def backRefOK (avail : List Nat) (m : Msg) : Bool :=
  match m.reply_to_msg_id with
  | some t => !(avail.contains t) || decide (t < m.id)
  | none => true

/-- A two-message batch with unique ascending ids 1, 2 whose first message
carries a source-provided explicit reply pointing forward to id 2. -/
def fwdBatch : List Msg :=
  [mkMsg 1 "a" 100 "x" (some 2), mkMsg 2 "b" 101 "y" none]

/-- C3 (counterexample): the passes validate only the links they create;
a source-provided explicit reply id is passed through unchecked, so after
all three passes message 1 of `fwdBatch` still resolves to the in-batch
target 2, which is not strictly less than 1. -/
theorem C3_counterexample :
    ((runPasses isoParse 300 5 fwdBatch).msgs.all
      (backRefOK (idsOf fwdBatch))) = false := by
  decide

/-- The invariant the three passes do establish for the links they create:
an inferred link resolves to an in-batch id strictly smaller than the
referencing message's id. -/
def InfOK (avail : List Nat) (m : Msg) : Prop :=
  m.inferred_reply_type ≠ none →
    ∃ t, m.reply_to_msg_id = some t ∧ t ∈ avail ∧ t < m.id

theorem pass1Go_infOK (avail : List Nat) (a : Msg) (l : List Msg)
    (hc : List.Chain' (· < ·) (a.id :: idsOf l))
    (ha : InfOK avail a) (hl : ∀ m ∈ l, InfOK avail m) :
    ∀ m ∈ (pass1Go avail a l).1, InfOK avail m := by
  induction l generalizing a with
  | nil =>
    intro m hm
    simp only [pass1Go, List.mem_singleton] at hm
    subst hm; exact ha
  | cons b rest ih =>
    intro m hm
    unfold pass1Go at hm
    dsimp only at hm
    rw [List.mem_cons] at hm
    have hids : idsOf (b :: rest) = b.id :: idsOf rest := rfl
    rw [hids] at hc
    have hab : a.id < b.id := (List.chain'_cons.mp hc).1
    have hcb : List.Chain' (· < ·) (b.id :: idsOf rest) := (List.chain'_cons.mp hc).2
    rcases hm with rfl | hm
    · exact ha
    · by_cases hf : sameUserCond avail a b = true
      · simp only [hf, if_true] at hm
        refine ih (linkTo a.id "same_user_consecutive" b) ?_ ?_
          (fun x hx => hl x (List.mem_cons_of_mem b hx)) m hm
        · simpa using hcb
        · intro _
          refine ⟨a.id, rfl, ?_, by simpa using hab⟩
          simp only [sameUserCond, Bool.and_eq_true] at hf
          simpa using hf.2
      · rw [if_neg hf] at hm
        exact ih b hcb (hl b (List.mem_cons_self b rest))
          (fun x hx => hl x (List.mem_cons_of_mem b hx)) m hm

theorem pass2Go_infOK (avail : List Nat) (m1 m2 : Msg) (l : List Msg)
    (hc : List.Chain' (· < ·) (m1.id :: m2.id :: idsOf l))
    (h1 : InfOK avail m1) (h2 : InfOK avail m2) (hl : ∀ m ∈ l, InfOK avail m) :
    ∀ m ∈ (pass2Go avail m1 m2 l).1, InfOK avail m := by
  induction l generalizing m1 m2 with
  | nil =>
    intro m hm
    simp only [pass2Go, List.mem_cons, List.mem_singleton, List.not_mem_nil,
      or_false] at hm
    rcases hm with rfl | rfl
    · exact h1
    · exact h2
  | cons m3 rest ih =>
    intro m hm
    unfold pass2Go at hm
    dsimp only at hm
    rw [List.mem_cons] at hm
    have hids : idsOf (m3 :: rest) = m3.id :: idsOf rest := rfl
    rw [hids] at hc
    have h23 : m2.id < m3.id := ((List.chain'_cons.mp hc).2 |> List.chain'_cons.mp).1
    have hc2 : List.Chain' (· < ·) (m2.id :: m3.id :: idsOf rest) :=
      (List.chain'_cons.mp hc).2
    rcases hm with rfl | hm
    · exact h1
    · by_cases hf : abaCond avail m1 m2 m3 = true
      · simp only [hf, if_true] at hm
        refine ih m2 (linkTo m2.id "aba" m3) ?_ h2 ?_
          (fun x hx => hl x (List.mem_cons_of_mem m3 hx)) m hm
        · simpa using hc2
        · intro _
          refine ⟨m2.id, rfl, ?_, by simpa using h23⟩
          simp only [abaCond, Bool.and_eq_true] at hf
          simpa using hf.2
      · rw [if_neg hf] at hm
        exact ih m2 m3 hc2 h2 (hl m3 (List.mem_cons_self m3 rest))
          (fun x hx => hl x (List.mem_cons_of_mem m3 hx)) m hm

theorem pass3Go_infOK (parse : String → Option Int) (tth idth : Int)
    (avail : List Nat) (p : Msg) (l : List Msg)
    (hp : InfOK avail p) (hl : ∀ m ∈ l, InfOK avail m) :
    ∀ m ∈ (pass3Go parse tth idth avail p l).1, InfOK avail m := by
  induction l generalizing p with
  | nil =>
    intro m hm
    simp only [pass3Go, List.mem_singleton] at hm
    subst hm; exact hp
  | cons c rest ih =>
    intro m hm
    unfold pass3Go at hm
    dsimp only at hm
    rw [List.mem_cons] at hm
    rcases hm with rfl | hm
    · exact hp
    · by_cases hf : proxCond parse tth idth avail p c = true
      · simp only [hf, if_true] at hm
        refine ih (linkTo p.id "time_proximity" c) ?_
          (fun x hx => hl x (List.mem_cons_of_mem c hx)) m hm
        intro _
        simp only [proxCond, Bool.and_eq_true] at hf
        refine ⟨p.id, rfl, by simpa using hf.2, ?_⟩
        have hid : (0 : Int) < (c.id : Int) - (p.id : Int) := by
          have := hf.1.1.2
          simpa using this
        simp only [linkTo_id]
        omega
      · rw [if_neg hf] at hm
        exact ih c (hl c (List.mem_cons_self c rest))
          (fun x hx => hl x (List.mem_cons_of_mem c hx)) m hm

theorem pass1_infOK (avail : List Nat) (l : List Msg)
    (hc : List.Chain' (· < ·) (idsOf l))
    (hl : ∀ m ∈ l, InfOK avail m) :
    ∀ m ∈ (pass1 avail l).1, InfOK avail m := by
  cases l with
  | nil => intro m hm; simp [pass1] at hm
  | cons a rest =>
    exact pass1Go_infOK avail a rest hc (hl a (List.mem_cons_self a rest))
      (fun x hx => hl x (List.mem_cons_of_mem a hx))

theorem pass2_infOK (avail : List Nat) (l : List Msg)
    (hc : List.Chain' (· < ·) (idsOf l))
    (hl : ∀ m ∈ l, InfOK avail m) :
    ∀ m ∈ (pass2 avail l).1, InfOK avail m := by
  match l with
  | [] => intro m hm; simp [pass2] at hm
  | [a] =>
    intro m hm
    simp only [pass2, List.mem_singleton] at hm
    subst hm; exact hl _ (List.mem_singleton.mpr rfl)
  | m1 :: m2 :: rest =>
    exact pass2Go_infOK avail m1 m2 rest hc
      (hl m1 (by simp)) (hl m2 (by simp))
      (fun x hx => hl x (by simp [hx]))

theorem pass3_infOK (parse : String → Option Int) (tth idth : Int)
    (avail : List Nat) (l : List Msg)
    (hl : ∀ m ∈ l, InfOK avail m) :
    ∀ m ∈ (pass3 parse tth idth avail l).1, InfOK avail m := by
  cases l with
  | nil => intro m hm; simp [pass3] at hm
  | cons a rest =>
    exact pass3Go_infOK parse tth idth avail a rest
      (hl a (List.mem_cons_self a rest))
      (fun x hx => hl x (List.mem_cons_of_mem a hx))

/-- C3 (amended): on a batch with unique ascending ids and no pre-existing
inference tags, every link the three passes create resolves to an id
present in the batch and strictly less than the referencing message's id;
source-provided explicit reply ids, however, are passed through without
this validation (see the counterexample). -/
theorem C3_inferred_links_backward (parse : String → Option Int)
    (tth idth : Int) (msgs : List Msg)
    (hasc : List.Chain' (· < ·) (idsOf msgs))
    (hinf : ∀ m ∈ msgs, m.inferred_reply_type = none) :
    ∀ m ∈ (runPasses parse tth idth msgs).msgs, InfOK (idsOf msgs) m := by
  unfold runPasses
  dsimp only
  have h0 : ∀ m ∈ msgs, InfOK (idsOf msgs) m :=
    fun m hm hne => absurd (hinf m hm) hne
  have h1 := pass1_infOK (idsOf msgs) msgs hasc h0
  have h2 := pass2_infOK (idsOf msgs) (pass1 (idsOf msgs) msgs).1
    (by rw [pass1_ids]; exact hasc) h1
  exact pass3_infOK parse tth idth (idsOf msgs) _ h2

/-- C3 (witness): the amended theorem applied to the concrete example
batch; message 2 receives a same-user link to the in-batch smaller id 1. -/
theorem C3_witness :
    List.Chain' (· < ·) (idsOf (exampleBatch "x" "y" "z")) ∧
    (∀ m ∈ exampleBatch "x" "y" "z", m.inferred_reply_type = none) ∧
    InfOK (idsOf (exampleBatch "x" "y" "z"))
      ⟨2, "y", 100, "there", some 1, none, some "same_user_consecutive"⟩ :=
  ⟨by simp [idsOf, exampleBatch, mkMsg, List.chain'_cons], by decide,
    C3_inferred_links_backward isoParse 300 5 (exampleBatch "x" "y" "z")
      (by simp [idsOf, exampleBatch, mkMsg, List.chain'_cons]) (by decide) _
      (by decide)⟩

/-! ### C4 -/

/-- Immutability of an already-set reply link: if a message enters a pass
with its link set, the pass returns it unchanged (link, reason tag and all
other fields). -/
def LinkPreserved (m m' : Msg) : Prop := m.reply_to_msg_id ≠ none → m' = m

theorem LinkPreserved.rfl (m : Msg) : LinkPreserved m m := fun _ => Eq.refl m

theorem LinkPreserved.trans {x y z : Msg} (h1 : LinkPreserved x y)
    (h2 : LinkPreserved y z) : LinkPreserved x z := by
  intro hx
  have hyx : y = x := h1 hx
  rw [hyx] at h2
  exact h2 hx

theorem forall₂_trans_LP : ∀ {a b c : List Msg}, List.Forall₂ LinkPreserved a b →
    List.Forall₂ LinkPreserved b c → List.Forall₂ LinkPreserved a c := by
  intro a b c hab hbc
  induction hab generalizing c with
  | nil => cases hbc; exact List.Forall₂.nil
  | cons h t ih =>
    cases hbc with
    | cons h' t' => exact List.Forall₂.cons (h.trans h') (ih t')

theorem forall₂_imp_mem {R S : Msg → Msg → Prop} :
    ∀ {l l' : List Msg}, List.Forall₂ R l l' →
      (∀ x ∈ l, ∀ y, R x y → S x y) → List.Forall₂ S l l' := by
  intro l l' h hmem
  induction h with
  | nil => exact List.Forall₂.nil
  | cons h t ih =>
    refine List.Forall₂.cons (hmem _ (by simp) _ h) (ih ?_)
    intro x hx y hr
    exact hmem x (by simp [hx]) y hr

theorem forall₂_LP_replace_head {x y : Msg} {t out : List Msg}
    (hxy : LinkPreserved x y)
    (h : List.Forall₂ LinkPreserved (y :: t) out) :
    List.Forall₂ LinkPreserved (x :: t) out := by
  rcases List.forall₂_cons_left_iff.mp h with ⟨b, u, hyb, ht, rfl⟩
  exact List.Forall₂.cons (hxy.trans hyb) ht

theorem pass1Go_preserved (avail : List Nat) (a : Msg) (l : List Msg) :
    List.Forall₂ LinkPreserved (a :: l) (pass1Go avail a l).1 := by
  induction l generalizing a with
  | nil => exact List.Forall₂.cons (LinkPreserved.rfl a) List.Forall₂.nil
  | cons b rest ih =>
    unfold pass1Go
    dsimp only
    refine List.Forall₂.cons (LinkPreserved.rfl a) ?_
    by_cases hf : sameUserCond avail a b = true
    · rw [if_pos hf]
      have hb : LinkPreserved b (linkTo a.id "same_user_consecutive" b) := by
        intro hb
        simp only [sameUserCond, Bool.and_eq_true] at hf
        exact absurd (by simpa using hf.1.2) hb
      exact forall₂_LP_replace_head hb
        (ih (linkTo a.id "same_user_consecutive" b))
    · rw [if_neg hf]
      exact ih b

theorem pass2Go_preserved (avail : List Nat) (m1 m2 : Msg) (l : List Msg) :
    List.Forall₂ LinkPreserved (m1 :: m2 :: l) (pass2Go avail m1 m2 l).1 := by
  induction l generalizing m1 m2 with
  | nil =>
    exact List.Forall₂.cons (LinkPreserved.rfl m1)
      (List.Forall₂.cons (LinkPreserved.rfl m2) List.Forall₂.nil)
  | cons m3 rest ih =>
    unfold pass2Go
    dsimp only
    refine List.Forall₂.cons (LinkPreserved.rfl m1) ?_
    by_cases hf : abaCond avail m1 m2 m3 = true
    · rw [if_pos hf]
      have hb : LinkPreserved m3 (linkTo m2.id "aba" m3) := by
        intro hb
        simp only [abaCond, Bool.and_eq_true] at hf
        exact absurd (by simpa using hf.1.2) hb
      rcases List.forall₂_cons_left_iff.mp (ih m2 (linkTo m2.id "aba" m3)) with
        ⟨b2, u2, h2, ht2, heq⟩
      rw [heq]
      exact List.Forall₂.cons h2 (forall₂_LP_replace_head hb ht2)
    · rw [if_neg hf]
      exact ih m2 m3

theorem pass3Go_preserved (parse : String → Option Int) (tth idth : Int)
    (avail : List Nat) (p : Msg) (l : List Msg) :
    List.Forall₂ LinkPreserved (p :: l) (pass3Go parse tth idth avail p l).1 := by
  induction l generalizing p with
  | nil => exact List.Forall₂.cons (LinkPreserved.rfl p) List.Forall₂.nil
  | cons c rest ih =>
    unfold pass3Go
    dsimp only
    refine List.Forall₂.cons (LinkPreserved.rfl p) ?_
    by_cases hf : proxCond parse tth idth avail p c = true
    · rw [if_pos hf]
      have hb : LinkPreserved c (linkTo p.id "time_proximity" c) := by
        intro hb
        simp only [proxCond, Bool.and_eq_true] at hf
        exact absurd (by simpa using hf.1.1.1.1.2) hb
      exact forall₂_LP_replace_head hb (ih (linkTo p.id "time_proximity" c))
    · rw [if_neg hf]
      exact ih c

theorem pass1_preserved (avail : List Nat) (l : List Msg) :
    List.Forall₂ LinkPreserved l (pass1 avail l).1 := by
  cases l with
  | nil => exact List.Forall₂.nil
  | cons a rest => exact pass1Go_preserved avail a rest

theorem pass2_preserved (avail : List Nat) (l : List Msg) :
    List.Forall₂ LinkPreserved l (pass2 avail l).1 := by
  match l with
  | [] => exact List.Forall₂.nil
  | [a] => exact List.Forall₂.cons (LinkPreserved.rfl a) List.Forall₂.nil
  | m1 :: m2 :: rest => exact pass2Go_preserved avail m1 m2 rest

theorem pass3_preserved (parse : String → Option Int) (tth idth : Int)
    (avail : List Nat) (l : List Msg) :
    List.Forall₂ LinkPreserved l (pass3 parse tth idth avail l).1 := by
  cases l with
  | nil => exact List.Forall₂.nil
  | cons a rest => exact pass3Go_preserved parse tth idth avail a rest

/-- C4: the reply-link field follows the claimed state machine.  Each pass
preserves every message whose link is already set (first three conjuncts:
stage-by-stage `Forall₂` preservation, which also means a link and its
reason tag are never overwritten or cleared once set, so an unlinked
message is linked at most once, by the first pass in the fixed order
same-user, A-B-A, proximity whose rule matches), and a message with a
source-provided explicit reply survives all three passes completely
unchanged, in particular never receiving an inferred link (last conjunct;
the hypothesis is the ingestion invariant `reply_to_msg_id ==
original_reply_to` of telegram.py lines 172-173). -/
theorem C4_link_state_machine (parse : String → Option Int) (tth idth : Int)
    (msgs : List Msg)
    (hwf : ∀ m ∈ msgs, m.reply_to_msg_id = m.original_reply_to) :
    List.Forall₂ LinkPreserved msgs (pass1 (idsOf msgs) msgs).1 ∧
    List.Forall₂ LinkPreserved (pass1 (idsOf msgs) msgs).1
      (pass2 (idsOf msgs) (pass1 (idsOf msgs) msgs).1).1 ∧
    List.Forall₂ LinkPreserved (pass2 (idsOf msgs) (pass1 (idsOf msgs) msgs).1).1
      (runPasses parse tth idth msgs).msgs ∧
    List.Forall₂ (fun m d => m.original_reply_to ≠ none → d = m) msgs
      (runPasses parse tth idth msgs).msgs := by
  have h1 := pass1_preserved (idsOf msgs) msgs
  have h2 := pass2_preserved (idsOf msgs) (pass1 (idsOf msgs) msgs).1
  have h3 := pass3_preserved parse tth idth (idsOf msgs)
    (pass2 (idsOf msgs) (pass1 (idsOf msgs) msgs).1).1
  refine ⟨h1, h2, h3, ?_⟩
  have hall : List.Forall₂ LinkPreserved msgs (runPasses parse tth idth msgs).msgs :=
    forall₂_trans_LP (forall₂_trans_LP h1 h2) h3
  refine forall₂_imp_mem hall ?_
  intro x hx y hr hor
  exact hr (by rw [hwf x hx]; exact hor)

/-- C4 (witness): the state-machine theorem applied to the concrete
example batch. -/
theorem C4_witness :
    (∀ m ∈ exampleBatch "x" "y" "z",
      m.reply_to_msg_id = m.original_reply_to) ∧
    (List.Forall₂ LinkPreserved (exampleBatch "x" "y" "z")
        (pass1 (idsOf (exampleBatch "x" "y" "z")) (exampleBatch "x" "y" "z")).1 ∧
      List.Forall₂ LinkPreserved
        (pass1 (idsOf (exampleBatch "x" "y" "z")) (exampleBatch "x" "y" "z")).1
        (pass2 (idsOf (exampleBatch "x" "y" "z"))
          (pass1 (idsOf (exampleBatch "x" "y" "z")) (exampleBatch "x" "y" "z")).1).1 ∧
      List.Forall₂ LinkPreserved
        (pass2 (idsOf (exampleBatch "x" "y" "z"))
          (pass1 (idsOf (exampleBatch "x" "y" "z")) (exampleBatch "x" "y" "z")).1).1
        (runPasses isoParse 300 5 (exampleBatch "x" "y" "z")).msgs ∧
      List.Forall₂ (fun m d => m.original_reply_to ≠ none → d = m)
        (exampleBatch "x" "y" "z")
        (runPasses isoParse 300 5 (exampleBatch "x" "y" "z")).msgs) :=
  ⟨by decide, C4_link_state_machine isoParse 300 5 (exampleBatch "x" "y" "z")
    (by decide)⟩

/-! ### C8 -/

theorem pass2Go_get0 (avail : List Nat) (m1 m2 : Msg) (l : List Msg) :
    (pass2Go avail m1 m2 l).1.get? 0 = some m1 := by
  cases l <;> simp [pass2Go]

theorem pass2Go_get1 (avail : List Nat) (m1 m2 : Msg) (l : List Msg) :
    (pass2Go avail m1 m2 l).1.get? 1 = some m2 := by
  cases l with
  | nil => rfl
  | cons m3 rest =>
    unfold pass2Go
    dsimp only
    rw [List.get?_cons_succ]
    exact pass2Go_get0 avail m2 _ rest

theorem abaCond_congr_1 (avail : List Nat) {a a' : Msg} (b c : Msg)
    (h : a.sender_id = a'.sender_id) (hi : a.id = a'.id) :
    abaCond avail a b c = abaCond avail a' b c := by
  simp [abaCond, h, hi]

theorem abaCond_congr_2 (avail : List Nat) (a : Msg) {b b' : Msg} (c : Msg)
    (hs : b.sender_id = b'.sender_id) (ho : b.original_reply_to = b'.original_reply_to)
    (hi : b.id = b'.id) :
    abaCond avail a b c = abaCond avail a b' c := by
  simp [abaCond, hs, ho, hi]

theorem pass2Go_get_char (avail : List Nat) :
    ∀ (l : List Msg) (m1 m2 : Msg) (k : Nat) (a b c : Msg),
      (m1 :: m2 :: l).get? k = some a →
      (m2 :: l).get? k = some b →
      l.get? k = some c →
      (pass2Go avail m1 m2 l).1.get? (k + 2) =
        some (if abaCond avail a b c then linkTo b.id "aba" c else c) := by
  intro l
  induction l with
  | nil => intro m1 m2 k a b c _ _ hc; simp at hc
  | cons m3 rest ih =>
    intro m1 m2 k a b c ha hb hc
    unfold pass2Go
    dsimp only
    rw [List.get?_cons_succ]
    cases k with
    | zero =>
      simp only [List.get?_cons_zero, Option.some_inj] at ha hb hc
      subst ha; subst hb; subst hc
      by_cases hf : abaCond avail m1 m2 m3 = true
      · rw [if_pos hf]
        exact pass2Go_get1 avail m2 _ rest
      · rw [if_neg hf]
        exact pass2Go_get1 avail m2 _ rest
    | succ k' =>
      rw [List.get?_cons_succ] at ha hb hc
      -- ha : (m2 :: m3 :: rest).get? k' = some a
      -- hb : (m3 :: rest).get? k' = some b
      -- hc : rest.get? k' = some c
      set m3' := if abaCond avail m1 m2 m3 then linkTo m2.id "aba" m3 else m3 with hm3'
      have hcore_s : m3.sender_id = m3'.sender_id := by
        rw [hm3']; split <;> rfl
      have hcore_o : m3.original_reply_to = m3'.original_reply_to := by
        rw [hm3']; split <;> rfl
      have hcore_i : m3.id = m3'.id := by
        rw [hm3']; split <;> rfl
      cases k' with
      | zero =>
        simp only [List.get?_cons_zero, Option.some_inj] at ha hb
        subst ha; subst hb
        have := ih m2 m3' 0 m2 m3' c rfl rfl hc
        rw [this]
        rw [@abaCond_congr_2 avail m2 m3 m3' c hcore_s hcore_o hcore_i, hcore_i]
      | succ j =>
        rw [List.get?_cons_succ] at ha hb
        cases j with
        | zero =>
          simp only [List.get?_cons_zero, Option.some_inj] at ha
          subst ha
          have := ih m2 m3' 1 m3' b c (by simp) (by simpa using hb) hc
          rw [this]
          rw [@abaCond_congr_1 avail m3 m3' b c hcore_s hcore_i]
        | succ j' =>
          rw [List.get?_cons_succ] at ha
          exact ih m2 m3' (j' + 2) a b c (by simpa using ha) (by simpa using hb) hc

theorem pass1Go_reasons (avail : List Nat) (a : Msg) (l : List Msg)
    (ha : a.inferred_reply_type = none ∨
      a.inferred_reply_type = some "same_user_consecutive")
    (hl : ∀ m ∈ l, m.inferred_reply_type = none) :
    ∀ m ∈ (pass1Go avail a l).1, m.inferred_reply_type = none ∨
      m.inferred_reply_type = some "same_user_consecutive" := by
  induction l generalizing a with
  | nil =>
    intro m hm
    simp only [pass1Go, List.mem_singleton] at hm
    subst hm; exact ha
  | cons b rest ih =>
    intro m hm
    unfold pass1Go at hm
    dsimp only at hm
    rw [List.mem_cons] at hm
    rcases hm with rfl | hm
    · exact ha
    · by_cases hf : sameUserCond avail a b = true
      · simp only [hf, if_true] at hm
        exact ih (linkTo a.id "same_user_consecutive" b) (Or.inr rfl)
          (fun x hx => hl x (List.mem_cons_of_mem b hx)) m hm
      · rw [if_neg hf] at hm
        exact ih b (Or.inl (hl b (List.mem_cons_self b rest)))
          (fun x hx => hl x (List.mem_cons_of_mem b hx)) m hm

theorem pass1_reasons (avail : List Nat) (l : List Msg)
    (hl : ∀ m ∈ l, m.inferred_reply_type = none) :
    ∀ m ∈ (pass1 avail l).1, m.inferred_reply_type = none ∨
      m.inferred_reply_type = some "same_user_consecutive" := by
  cases l with
  | nil => intro m hm; simp [pass1] at hm
  | cons a rest =>
    exact pass1Go_reasons avail a rest
      (Or.inl (hl a (List.mem_cons_self a rest)))
      (fun x hx => hl x (List.mem_cons_of_mem a hx))

/-- C8: within the A-B-A pass (which runs on the output of the same-user
pass), a consecutive triple (m1, m2, m3) makes the pass link m3 to m2 with
reason `aba` exactly when m1 and m3 share a sender, m2's sender differs,
m2's original source-provided explicit reply id equals m1's id (a pass-1
inferred link on m2 does not qualify, since the condition reads
`original_reply_to`), and m3 still has no reply link of any kind at that
point in the pass order. -/
theorem C8_aba_exactly_when (msgs : List Msg)
    (hinf : ∀ m ∈ msgs, m.inferred_reply_type = none)
    (i : Nat) (m1 m2 m3 o : Msg)
    (h1 : (pass1 (idsOf msgs) msgs).1.get? i = some m1)
    (h2 : (pass1 (idsOf msgs) msgs).1.get? (i + 1) = some m2)
    (h3 : (pass1 (idsOf msgs) msgs).1.get? (i + 2) = some m3)
    (ho : (pass2 (idsOf msgs) (pass1 (idsOf msgs) msgs).1).1.get? (i + 2) = some o) :
    (o.reply_to_msg_id = some m2.id ∧ o.inferred_reply_type = some "aba") ↔
      (m1.sender_id = m3.sender_id ∧ m1.sender_id ≠ m2.sender_id ∧
        m2.original_reply_to = some m1.id ∧ m3.reply_to_msg_id = none) := by
  rcases hp : (pass1 (idsOf msgs) msgs).1 with _ | ⟨x, t⟩
  · rw [hp] at h3; simp at h3
  rcases t with _ | ⟨y, rest⟩
  · rw [hp] at h3
    cases i <;> simp at h3
  rw [hp] at h1 h2 h3 ho
  have hchar := pass2Go_get_char (idsOf msgs) rest x y i m1 m2 m3
    h1 (by simpa using h2) (by simpa using h3)
  have ho2 : (pass2Go (idsOf msgs) x y rest).1.get? (i + 2) = some o := by
    simpa [pass2] using ho
  rw [hchar] at ho2
  have hoeq : o = if abaCond (idsOf msgs) m1 m2 m3 then linkTo m2.id "aba" m3 else m3 :=
    (Option.some_inj.mp ho2).symm
  have hm3mem : m3 ∈ (pass1 (idsOf msgs) msgs).1 := by
    rw [hp]; exact List.get?_mem h3
  have hm2mem : m2 ∈ (pass1 (idsOf msgs) msgs).1 := by
    rw [hp]; exact List.get?_mem h2
  have hm3r := pass1_reasons (idsOf msgs) msgs hinf m3 hm3mem
  have hm2avail : m2.id ∈ idsOf msgs := by
    have : m2.id ∈ idsOf (pass1 (idsOf msgs) msgs).1 :=
      List.mem_map_of_mem (fun m => m.id) hm2mem
    rwa [pass1_ids] at this
  constructor
  · intro hlink
    by_cases hf : abaCond (idsOf msgs) m1 m2 m3 = true
    · simp only [abaCond, Bool.and_eq_true, beq_iff_eq, Bool.not_eq_true',
        beq_eq_false_iff_ne, ne_eq] at hf
      exact ⟨hf.1.1.1.1, hf.1.1.1.2, hf.1.1.2, hf.1.2⟩
    · rw [if_neg hf] at hoeq
      subst hoeq
      rcases hm3r with hr | hr
      · rw [hr] at hlink; exact absurd hlink.2 (by simp)
      · rw [hr] at hlink
        exact absurd (Option.some_inj.mp hlink.2) (by decide)
  · intro hconds
    have hf : abaCond (idsOf msgs) m1 m2 m3 = true := by
      simp only [abaCond, Bool.and_eq_true, beq_iff_eq, Bool.not_eq_true',
        beq_eq_false_iff_ne, ne_eq]
      refine ⟨⟨⟨⟨hconds.1, hconds.2.1⟩, hconds.2.2.1⟩, hconds.2.2.2⟩, ?_⟩
      simpa using hm2avail
    rw [if_pos hf] at hoeq
    subst hoeq
    exact ⟨rfl, rfl⟩

/-- The three-message batch exercising the A-B-A rule: senders A, B, A with
an explicit reply of message 2 to message 1. -/
def abaBatch : List Msg :=
  [mkMsg 1 "a" 100 "ha" none, mkMsg 2 "b" 200 "hb" (some 1),
   mkMsg 3 "c" 100 "hc" none]

/-- C8 (witness): on `abaBatch` the pass-2 output at position 2 carries the
`aba` link to message 2, and the theorem's equivalence holds there. -/
theorem C8_witness :
    ((∀ m ∈ abaBatch, m.inferred_reply_type = none) ∧
      (pass1 (idsOf abaBatch) abaBatch).1.get? 0 = some (mkMsg 1 "a" 100 "ha" none) ∧
      (pass1 (idsOf abaBatch) abaBatch).1.get? 1 = some (mkMsg 2 "b" 200 "hb" (some 1)) ∧
      (pass1 (idsOf abaBatch) abaBatch).1.get? 2 = some (mkMsg 3 "c" 100 "hc" none) ∧
      (pass2 (idsOf abaBatch) (pass1 (idsOf abaBatch) abaBatch).1).1.get? 2 =
        some ⟨3, "c", 100, "hc", some 2, none, some "aba"⟩) ∧
    (((⟨3, "c", 100, "hc", some 2, none, some "aba"⟩ : Msg).reply_to_msg_id =
        some (mkMsg 2 "b" 200 "hb" (some 1)).id ∧
      (⟨3, "c", 100, "hc", some 2, none, some "aba"⟩ : Msg).inferred_reply_type =
        some "aba") ↔
      ((mkMsg 1 "a" 100 "ha" none).sender_id = (mkMsg 3 "c" 100 "hc" none).sender_id ∧
        (mkMsg 1 "a" 100 "ha" none).sender_id ≠ (mkMsg 2 "b" 200 "hb" (some 1)).sender_id ∧
        (mkMsg 2 "b" 200 "hb" (some 1)).original_reply_to =
          some (mkMsg 1 "a" 100 "ha" none).id ∧
        (mkMsg 3 "c" 100 "hc" none).reply_to_msg_id = none)) :=
  ⟨⟨by decide, by decide, by decide, by decide, by decide⟩,
    C8_aba_exactly_when abaBatch (by decide) 0 _ _ _ _
      (by decide) (by decide) (by decide) (by decide)⟩

/-! ### C7 -/

/-- C7 (counterexample): with all three timestamps equal (a legitimate
choice, parsed by `fromisoformat`), the per-node interjection check of the
thread builder (telegram.py lines 388-401) finds message 3 within 30
seconds of message 2 and drops it from the thread; the surviving thread has
one participant and is filtered out, so no chunk at all is emitted — not
the one chunk the claim demands for all timestamp choices. -/
theorem C7_counterexample :
    (process_messages_to_chunks isoParse
      (exampleBatch "2023-01-01T12:00:00+00:00" "2023-01-01T12:00:00+00:00"
        "2023-01-01T12:00:00+00:00") gInfo 300 5 2).conversation_chunks = [] := by
  decide

/-- C7 (amended): for the three-message example batch with
`min_participants = 2`, the pipeline emits exactly one chunk — content
`"user0: hi\nthere\nuser1: hey"`, `participant_count = 2`,
`message_count_original = 3` — for every choice of the three timestamps
such that message 3's timestamp minus message 2's exceeds 30 seconds or at
least one of the two fails to parse (otherwise the interjection heuristic
drops message 3; message 1's timestamp is never consulted). -/
theorem C7_example_chunk (parse : String → Option Int) (d1 d2 d3 : String)
    (g : GroupInfo) (tth idth : Int)
    (hgap : match parse d3, parse d2 with
            | some tc, some tp => 30 < tc - tp
            | _, _ => True) :
    process_messages_to_chunks parse (exampleBatch d1 d2 d3) g tth idth 2 =
      ⟨some g, some ⟨tth, idth, 2⟩, ⟨3, some 1, some 0, some 0, some 1, some 0, 1⟩,
        [exampleChunk g d1 d3]⟩ := by
  have h32 : (match parse d3, parse d2 with
      | some tc, some tp => decide (tc - tp ≤ 30)
      | _, _ => false) = false := by
    rcases hp3 : parse d3 with _ | tc
    · rfl
    · rcases hp2 : parse d2 with _ | tp
      · rfl
      · rw [hp3, hp2] at hgap
        have hg : 30 < tc - tp := hgap
        simp only [decide_eq_false_iff_not]
        omega
  have hI : bfsInterject parse
      [⟨1, d1, 100, "hi", none, none, none⟩,
        ⟨2, d2, 100, "there", some 1, none, some "same_user_consecutive"⟩,
        ⟨3, d3, 200, "hey", some 1, some 1, none⟩] 1 3
      ⟨3, d3, 200, "hey", some 1, some 1, none⟩ [2, 1] = false := h32
  have hrun : runRoot parse
      [⟨1, d1, 100, "hi", none, none, none⟩,
        ⟨2, d2, 100, "there", some 1, none, some "same_user_consecutive"⟩,
        ⟨3, d3, 200, "hey", some 1, some 1, none⟩] [] 1 = ([1, 2, 3], [3, 2, 1]) := by
    calc runRoot parse [⟨1, d1, 100, "hi", none, none, none⟩,
        ⟨2, d2, 100, "there", some 1, none, some "same_user_consecutive"⟩,
        ⟨3, d3, 200, "hey", some 1, some 1, none⟩] [] 1
        = (if bfsInterject parse [⟨1, d1, 100, "hi", none, none, none⟩,
        ⟨2, d2, 100, "there", some 1, none, some "same_user_consecutive"⟩,
        ⟨3, d3, 200, "hey", some 1, some 1, none⟩] 1 3
              ⟨3, d3, 200, "hey", some 1, some 1, none⟩ [2, 1] then
            bfsLoop parse [⟨1, d1, 100, "hi", none, none, none⟩,
        ⟨2, d2, 100, "there", some 1, none, some "same_user_consecutive"⟩,
        ⟨3, d3, 200, "hey", some 1, some 1, none⟩] 1 5 [] [2, 1] [2, 1] [200, 100] [2, 1]
          else
            bfsLoop parse [⟨1, d1, 100, "hi", none, none, none⟩,
        ⟨2, d2, 100, "there", some 1, none, some "same_user_consecutive"⟩,
        ⟨3, d3, 200, "hey", some 1, some 1, none⟩] 1 5 [] [3, 2, 1] [3, 2, 1] [200, 100] [3, 2, 1]) := rfl
      _ = ([1, 2, 3], [3, 2, 1]) := by rw [hI]; rfl
  have hthreads : buildThreads parse [⟨1, d1, 100, "hi", none, none, none⟩,
        ⟨2, d2, 100, "there", some 1, none, some "same_user_consecutive"⟩,
        ⟨3, d3, 200, "hey", some 1, some 1, none⟩] =
      [[⟨1, d1, 100, "hi", none, none, none⟩,
        ⟨2, d2, 100, "there", some 1, none, some "same_user_consecutive"⟩,
        ⟨3, d3, 200, "hey", some 1, some 1, none⟩]] := by
    calc buildThreads parse [⟨1, d1, 100, "hi", none, none, none⟩,
        ⟨2, d2, 100, "there", some 1, none, some "same_user_consecutive"⟩,
        ⟨3, d3, 200, "hey", some 1, some 1, none⟩]
        = (fun out : List Nat × List Nat =>
            if out.1.isEmpty then buildThreadsGo parse [⟨1, d1, 100, "hi", none, none, none⟩,
        ⟨2, d2, 100, "there", some 1, none, some "same_user_consecutive"⟩,
        ⟨3, d3, 200, "hey", some 1, some 1, none⟩] [] out.2 []
            else buildThreadsGo parse [⟨1, d1, 100, "hi", none, none, none⟩,
        ⟨2, d2, 100, "there", some 1, none, some "same_user_consecutive"⟩,
        ⟨3, d3, 200, "hey", some 1, some 1, none⟩] [] out.2
              [((List.insertionSort (· ≤ ·) out.1).filterMap
                (lookupLast [⟨1, d1, 100, "hi", none, none, none⟩,
        ⟨2, d2, 100, "there", some 1, none, some "same_user_consecutive"⟩,
        ⟨3, d3, 200, "hey", some 1, some 1, none⟩]))])
          (runRoot parse [⟨1, d1, 100, "hi", none, none, none⟩,
        ⟨2, d2, 100, "there", some 1, none, some "same_user_consecutive"⟩,
        ⟨3, d3, 200, "hey", some 1, some 1, none⟩] [] 1) := rfl
      _ = [[⟨1, d1, 100, "hi", none, none, none⟩,
        ⟨2, d2, 100, "there", some 1, none, some "same_user_consecutive"⟩,
        ⟨3, d3, 200, "hey", some 1, some 1, none⟩]] := by rw [hrun]; rfl
  calc process_messages_to_chunks parse (exampleBatch d1 d2 d3) g tth idth 2
      = (fun threads : List (List Msg) =>
          (⟨some g, some ⟨tth, idth, 2⟩,
            ⟨3, some 1, some 0, some 0, some threads.length,
              some ((threads.filter (filteredOutThread 2)).length),
              (threads.filterMap (threadToChunk g 2)).length⟩,
            threads.filterMap (threadToChunk g 2)⟩ : ProcResult))
        (buildThreads parse [⟨1, d1, 100, "hi", none, none, none⟩,
        ⟨2, d2, 100, "there", some 1, none, some "same_user_consecutive"⟩,
        ⟨3, d3, 200, "hey", some 1, some 1, none⟩]) := rfl
    _ = ⟨some g, some ⟨tth, idth, 2⟩,
          ⟨3, some 1, some 0, some 0, some 1, some 0, 1⟩,
          [exampleChunk g d1 d3]⟩ := by
        rw [hthreads]
        rfl

/-- C7 (witness): the amended theorem applied with unparsable timestamps. -/
theorem C7_witness :
    (match isoParse "z", isoParse "y" with
     | some tc, some tp => 30 < tc - tp
     | _, _ => True) ∧
    process_messages_to_chunks isoParse (exampleBatch "x" "y" "z")
        gInfo 300 5 2 =
      ⟨some gInfo, some ⟨300, 5, 2⟩,
        ⟨3, some 1, some 0, some 0, some 1, some 0, 1⟩,
        [exampleChunk gInfo "x" "z"]⟩ :=
  ⟨trivial, C7_example_chunk isoParse "x" "y" "z" gInfo 300 5 trivial⟩

/-! ### C5 -/

theorem insertIfAbsent_mem_self {α : Type} [DecidableEq α] (x : α) (l : List α) :
    x ∈ insertIfAbsent x l := by
  unfold insertIfAbsent
  split
  · assumption
  · exact List.mem_cons_self x l

theorem insertIfAbsent_subset {α : Type} [DecidableEq α] (x : α) (l : List α) :
    l ⊆ insertIfAbsent x l := by
  unfold insertIfAbsent
  split
  · exact fun _ h => h
  · exact fun _ h => List.mem_cons_of_mem x h

/-- Senders of the already-admitted ids all lie in the participant set. -/
def SendersIn (msgs : List Msg) (ids : List Nat) (parts : List Int) : Prop :=
  ∀ i ∈ ids, ∀ m, lookupLast msgs i = some m → m.sender_id ∈ parts

theorem bfsLoop_len (parse : String → Option Int) (msgs : List Msg) (rootId : Nat) :
    ∀ (fuel : Nat) (queue visited threadRev : List Nat) (parts : List Int)
      (processed : List Nat), threadRev.length ≤ 20 →
      ((bfsLoop parse msgs rootId fuel queue visited threadRev parts processed).1).length ≤ 20 := by
  intro fuel
  induction fuel with
  | zero => intro queue visited threadRev parts processed h; simpa [bfsLoop] using h
  | succ fuel ih =>
    intro queue visited threadRev parts processed h
    match queue with
    | [] => simpa [bfsLoop] using h
    | c :: rest =>
      unfold bfsLoop
      split
      · exact ih rest visited threadRev parts processed h
      · split
        · exact ih rest visited threadRev parts processed h
        · dsimp only
          split
          · simpa [bfsLoop] using h
          · split
            · exact ih rest visited threadRev _ processed h
            · refine ih _ _ (c :: threadRev) _ _ ?_
              rename_i hcap _
              simp only [Bool.or_eq_true, decide_eq_true_eq, not_or] at hcap
              simp only [List.length_cons]
              omega

theorem bfsLoop_senders (parse : String → Option Int) (msgs : List Msg) (rootId : Nat) :
    ∀ (fuel : Nat) (queue visited threadRev : List Nat) (parts : List Int)
      (processed : List Nat), parts.length ≤ 5 →
      SendersIn msgs threadRev parts →
      ∃ pf : List Int, pf.length ≤ 5 ∧
        SendersIn msgs
          (bfsLoop parse msgs rootId fuel queue visited threadRev parts processed).1 pf := by
  intro fuel
  induction fuel with
  | zero =>
    intro queue visited threadRev parts processed hlen hs
    refine ⟨parts, hlen, ?_⟩
    intro i hi
    exact hs i (by simpa [bfsLoop] using hi)
  | succ fuel ih =>
    intro queue visited threadRev parts processed hlen hs
    match queue with
    | [] =>
      refine ⟨parts, hlen, ?_⟩
      intro i hi
      exact hs i (by simpa [bfsLoop] using hi)
    | c :: rest =>
      unfold bfsLoop
      split
      · exact ih rest visited threadRev parts processed hlen hs
      · split
        · exact ih rest visited threadRev parts processed hlen hs
        · rename_i m hm
          dsimp only
          split
          · refine ⟨parts, hlen, ?_⟩
            intro i hi
            exact hs i (by simpa [bfsLoop] using hi)
          · rename_i hcap
            simp only [Bool.or_eq_true, decide_eq_true_eq, not_or] at hcap
            have hlen' : (insertIfAbsent m.sender_id parts).length ≤ 5 := by
              have := hcap.2
              omega
            have hs' : SendersIn msgs threadRev (insertIfAbsent m.sender_id parts) :=
              fun i hi m' hm' => insertIfAbsent_subset _ _ (hs i hi m' hm')
            split
            · exact ih rest visited threadRev _ processed hlen' hs'
            · refine ih _ _ (c :: threadRev) _ _ hlen' ?_
              intro i hi m' hm'
              rcases List.mem_cons.mp hi with rfl | hi
              · rw [hm] at hm'
                injection hm' with h
                subst h
                exact insertIfAbsent_mem_self _ _
              · exact hs' i hi m' hm'

theorem lookupLast_id {msgs : List Msg} {i : Nat} {m : Msg}
    (h : lookupLast msgs i = some m) : m.id = i := by
  have := List.find?_some h
  simpa using this

theorem buildThreadsGo_mem (parse : String → Option Int) (msgs : List Msg) :
    ∀ (roots processed : List Nat) (acc : List (List Msg)) (t : List Msg),
      t ∈ buildThreadsGo parse msgs roots processed acc →
      t ∈ acc ∨ ∃ (r : Nat) (proc : List Nat),
        t = (List.insertionSort (· ≤ ·) (runRoot parse msgs proc r).1).filterMap
          (lookupLast msgs) := by
  intro roots
  induction roots with
  | nil =>
    intro processed acc t ht
    simp only [buildThreadsGo, List.mem_reverse] at ht
    exact Or.inl ht
  | cons r rs ih =>
    intro processed acc t ht
    unfold buildThreadsGo at ht
    split at ht
    · exact ih processed acc t ht
    · dsimp only at ht
      split at ht
      · exact ih _ acc t ht
      · rcases ih _ _ t ht with hin | hform
        · rcases List.mem_cons.mp hin with rfl | hin
          · exact Or.inr ⟨r, processed, rfl⟩
          · exact Or.inl hin
        · exact Or.inr hform

theorem bfs_thread_bounds (parse : String → Option Int) (msgs : List Msg)
    (proc : List Nat) (r : Nat) :
    ((List.insertionSort (· ≤ ·) (runRoot parse msgs proc r).1).filterMap
        (lookupLast msgs)).length ≤ 20 ∧
    ∃ pf : List Int, pf.length ≤ 5 ∧
      ∀ m ∈ (List.insertionSort (· ≤ ·) (runRoot parse msgs proc r).1).filterMap
        (lookupLast msgs), m.sender_id ∈ pf := by
  constructor
  · calc ((List.insertionSort (· ≤ ·) (runRoot parse msgs proc r).1).filterMap
        (lookupLast msgs)).length
        ≤ (List.insertionSort (· ≤ ·) (runRoot parse msgs proc r).1).length :=
          List.length_filterMap_le _ _
      _ = (runRoot parse msgs proc r).1.length := List.length_insertionSort _ _
      _ ≤ 20 := bfsLoop_len parse msgs r (bfsFuel msgs) [r] [] [] [] proc (by simp)
  · obtain ⟨pf, hpf, hsend⟩ := bfsLoop_senders parse msgs r (bfsFuel msgs)
      [r] [] [] [] proc (by simp) (by intro i hi; simp at hi)
    refine ⟨pf, hpf, ?_⟩
    intro m hm
    rcases List.mem_filterMap.mp hm with ⟨i, hi, hlook⟩
    exact hsend i ((List.mem_insertionSort _).mp hi) m hlook

theorem condense_length_le (t : List Msg) : (condense t).length ≤ t.length := by
  induction t with
  | nil => simp [condense]
  | cons m rest ih =>
    unfold condense
    match hrest : condense rest with
    | [] => simp
    | (s, x) :: gs =>
      rw [hrest] at ih
      dsimp only
      split <;> simp only [List.length_cons] at ih ⊢ <;> omega

theorem labelBlocks_length :
    ∀ (blocks umap : List (Int × String)) (ctr : Nat),
      (labelBlocks blocks umap ctr).length = blocks.length := by
  intro blocks
  induction blocks with
  | nil => intro umap ctr; rfl
  | cons b rest ih =>
    intro umap ctr
    match b with
    | (s, x) =>
      unfold labelBlocks
      split <;> simp [ih]

theorem distinctSenders_go_nodup (t : List Msg) :
    ∀ acc : List Int, acc.Nodup →
      (t.foldl (fun acc m => insertIfAbsent m.sender_id acc) acc).Nodup := by
  induction t with
  | nil => intro acc h; simpa using h
  | cons m rest ih =>
    intro acc h
    refine ih _ ?_
    show (insertIfAbsent m.sender_id acc).Nodup
    unfold insertIfAbsent
    split
    · exact h
    · exact List.nodup_cons.mpr ⟨by assumption, h⟩

theorem distinctSenders_go_mem (t : List Msg) :
    ∀ (acc : List Int) (s : Int),
      s ∈ t.foldl (fun acc m => insertIfAbsent m.sender_id acc) acc →
      s ∈ acc ∨ ∃ m ∈ t, s = m.sender_id := by
  induction t with
  | nil => intro acc s h; exact Or.inl (by simpa using h)
  | cons m rest ih =>
    intro acc s h
    rcases ih _ s h with hin | ⟨m', hm', rfl⟩
    · have hin : s ∈ insertIfAbsent m.sender_id acc := hin
      unfold insertIfAbsent at hin
      split at hin
      · exact Or.inl hin
      · rcases List.mem_cons.mp hin with rfl | hin
        · exact Or.inr ⟨m, List.mem_cons_self m rest, rfl⟩
        · exact Or.inl hin
    · exact Or.inr ⟨m', List.mem_cons_of_mem m hm', rfl⟩

theorem threadToChunk_fields {g : GroupInfo} {minp : Int} {t : List Msg}
    {c : Chunk} (h : threadToChunk g minp t = some c) :
    minp ≤ ((distinctSenders t).length : Int) ∧
    c.participant_count = (distinctSenders t).length ∧
    c.message_count_original = t.length ∧
    c.turn_count_condensed = (condense t).length := by
  unfold threadToChunk at h
  match t, h with
  | first :: rest, h =>
    dsimp only at h
    split at h
    · exact absurd h (by simp)
    · rename_i hguard
      injection h with hceq
      subst hceq
      refine ⟨by omega, rfl, rfl, ?_⟩
      dsimp only
      rw [labelBlocks_length]

/-- C5: every emitted chunk of a run with the code's fixed caps
(`MAX_THREAD_MESSAGES = 20`, `MAX_PARTICIPANTS = 5`) satisfies
`participant_count >= min_participants` (the formatter's filter),
`participant_count <= 5` — and `participant_count` is exactly the thread's
distinct-sender count, so that count is at most 5 —
`message_count_original <= 20` (the BFS cap), and
`turn_count_condensed <= message_count_original` (condensing merges runs,
never splits). -/
theorem C5_chunk_bounds (parse : String → Option Int) (msgs : List Msg)
    (g : GroupInfo) (tth idth minp : Int) (c : Chunk)
    (hc : c ∈ (process_messages_to_chunks parse msgs g tth idth
      minp).conversation_chunks) :
    minp ≤ (c.participant_count : Int) ∧ c.participant_count ≤ 5 ∧
      c.message_count_original ≤ 20 ∧
      c.turn_count_condensed ≤ c.message_count_original := by
  unfold process_messages_to_chunks at hc
  split at hc
  · exact absurd hc (List.not_mem_nil c)
  · simp only [List.mem_filterMap] at hc
    obtain ⟨t, ht, hsome⟩ := hc
    unfold buildThreads at ht
    rcases buildThreadsGo_mem parse _ _ _ _ t ht with habs | ⟨r, proc, hteq⟩
    · simp at habs
    obtain ⟨hmin, hpc, hmc, htc⟩ := threadToChunk_fields hsome
    obtain ⟨hlen, pf, hpf, hsendall⟩ := bfs_thread_bounds parse
      (runPasses parse tth idth msgs).msgs proc r
    rw [← hteq] at hlen hsendall
    refine ⟨by rw [hpc]; exact hmin, ?_, ?_, ?_⟩
    · rw [hpc]
      have hnodup : (distinctSenders t).Nodup :=
        distinctSenders_go_nodup t [] List.nodup_nil
      have hsub : distinctSenders t ⊆ pf := by
        intro s hs
        rcases distinctSenders_go_mem t [] s hs with h0 | ⟨m, hm, rfl⟩
        · simp at h0
        · exact hsendall m hm
      exact le_trans (List.subperm_of_subset hnodup hsub).length_le hpf
    · rw [hmc]; exact hlen
    · rw [htc, hmc]
      exact condense_length_le t

/-- C5 (witness): the bounds theorem applied to a concrete emitted chunk. -/
theorem C5_witness :
    exampleChunk gInfo "x" "z" ∈ (process_messages_to_chunks isoParse
      (exampleBatch "x" "y" "z") gInfo 300 5 2).conversation_chunks ∧
    ((2 : Int) ≤ ((exampleChunk gInfo "x" "z").participant_count : Int) ∧
      (exampleChunk gInfo "x" "z").participant_count ≤ 5 ∧
      (exampleChunk gInfo "x" "z").message_count_original ≤ 20 ∧
      (exampleChunk gInfo "x" "z").turn_count_condensed ≤
        (exampleChunk gInfo "x" "z").message_count_original) :=
  ⟨by decide, C5_chunk_bounds isoParse (exampleBatch "x" "y" "z") gInfo
    300 5 2 _ (by decide)⟩

/-! ### C10 -/

inductive Reach (msgs : List Msg) (r : Nat) : Nat → Prop
  | refl : Reach msgs r r
  | step {y x : Nat} : Reach msgs r y → parentR msgs x = some y → Reach msgs r x

theorem reach_unique {msgs : List Msg} {r1 r2 x : Nat}
    (h1 : parentR msgs r1 = none) (h2 : parentR msgs r2 = none)
    (ha : Reach msgs r1 x) (hb : Reach msgs r2 x) : r1 = r2 := by
  induction ha with
  | refl =>
    cases hb with
    | refl => rfl
    | step _ hp => rw [h1] at hp; exact absurd hp (by simp)
  | step hy hp ih =>
    cases hb with
    | refl => rw [h2] at hp; exact absurd hp (by simp)
    | step hy' hp' =>
      rw [hp] at hp'
      injection hp' with h
      subst h
      exact ih hy'

theorem childrenOf_mem {msgs : List Msg} {c x : Nat} :
    x ∈ childrenOf msgs c ↔ x ∈ keysOf msgs ∧ parentR msgs x = some c := by
  unfold childrenOf
  rw [List.mem_insertionSort, List.mem_filter]
  simp

theorem dedupFirstGo_sees : ∀ (l seen : List Nat) (x : Nat),
    x ∈ dedupFirstGo seen l → x ∉ seen := by
  intro l
  induction l with
  | nil => intro seen x h; simp [dedupFirstGo] at h
  | cons a rest ih =>
    intro seen x h
    unfold dedupFirstGo at h
    split at h
    · exact ih seen x h
    · rcases List.mem_cons.mp h with rfl | h
      · assumption
      · intro hx
        exact ih (a :: seen) x h (List.mem_cons_of_mem a hx)

theorem dedupFirstGo_nodup : ∀ (l seen : List Nat),
    (dedupFirstGo seen l).Nodup := by
  intro l
  induction l with
  | nil => intro seen; simp [dedupFirstGo]
  | cons a rest ih =>
    intro seen
    unfold dedupFirstGo
    split
    · exact ih seen
    · refine List.nodup_cons.mpr ⟨?_, ih (a :: seen)⟩
      intro ha
      exact dedupFirstGo_sees rest (a :: seen) a ha (List.mem_cons_self a seen)

theorem rootIds_nodup (parse : String → Option Int) (msgs : List Msg) :
    (rootIds parse msgs).Nodup := by
  unfold rootIds
  exact (List.perm_insertionSort _ _).nodup_iff.mpr
    ((dedupFirstGo_nodup (idsOf msgs) []).filter _)

theorem root_parentR_none {parse : String → Option Int} {msgs : List Msg}
    {r : Nat} (h : r ∈ rootIds parse msgs) : parentR msgs r = none := by
  unfold rootIds at h
  rw [List.mem_insertionSort, List.mem_filter] at h
  have hroot := h.2
  unfold isRootId at hroot
  unfold parentR
  cases hl : lookupLast msgs r with
  | none => rfl
  | some m =>
    rw [hl] at hroot
    dsimp only at hroot
    show resolvedTarget (idsOf msgs) m = none
    cases hri : rootishTarget (idsOf msgs) m with
    | false =>
      rw [hri] at hroot
      simp at hroot
    | true =>
      unfold resolvedTarget
      unfold rootishTarget at hri
      cases hrm : m.reply_to_msg_id with
      | none => rfl
      | some t =>
        rw [hrm] at hri
        have hfalse : (t != 0 && (idsOf msgs).contains t) = false := by
          rcases Bool.or_eq_true_iff.mp hri with h0 | hnc
          · simp only [beq_iff_eq] at h0
            simp [h0]
          · simp only [Bool.not_eq_true'] at hnc
            have : t ∉ idsOf msgs := by simpa using hnc
            simp [this]
        show (if (t != 0 && (idsOf msgs).contains t) = true then some t else none) = none
        rw [hfalse]
        rfl

theorem bfsLoop_reach (parse : String → Option Int) (msgs : List Msg)
    (rootId : Nat) :
    ∀ (fuel : Nat) (queue visited threadRev : List Nat) (parts : List Int)
      (processed : List Nat),
      (∀ q ∈ queue, Reach msgs rootId q) →
      (∀ i ∈ threadRev, Reach msgs rootId i) →
      ∀ i ∈ (bfsLoop parse msgs rootId fuel queue visited threadRev parts
        processed).1, Reach msgs rootId i := by
  intro fuel
  induction fuel with
  | zero =>
    intro queue visited threadRev parts processed hq ht i hi
    exact ht i (by simpa [bfsLoop] using hi)
  | succ fuel ih =>
    intro queue visited threadRev parts processed hq ht i hi
    match queue with
    | [] => exact ht i (by simpa [bfsLoop] using hi)
    | c :: rest =>
      unfold bfsLoop at hi
      split at hi
      · exact ih rest visited threadRev parts processed
          (fun q hq' => hq q (List.mem_cons_of_mem c hq')) ht i hi
      · split at hi
        · exact ih rest visited threadRev parts processed
            (fun q hq' => hq q (List.mem_cons_of_mem c hq')) ht i hi
        · dsimp only at hi
          split at hi
          · exact ht i (by simpa using hi)
          · split at hi
            · exact ih rest visited threadRev _ processed
                (fun q hq' => hq q (List.mem_cons_of_mem c hq')) ht i hi
            · refine ih _ _ (c :: threadRev) _ _ ?_ ?_ i hi
              · intro q hq'
                rcases List.mem_append.mp hq' with hq' | hq'
                · exact hq q (List.mem_cons_of_mem c hq')
                · have := (List.mem_filter.mp hq').1
                  have hpar := (childrenOf_mem.mp this).2
                  exact Reach.step (hq c (List.mem_cons_self c rest)) hpar
              · intro j hj
                rcases List.mem_cons.mp hj with rfl | hj
                · exact hq j (List.mem_cons_self j rest)
                · exact ht j hj

theorem bfsLoop_nodup (parse : String → Option Int) (msgs : List Msg)
    (rootId : Nat) :
    ∀ (fuel : Nat) (queue visited threadRev : List Nat) (parts : List Int)
      (processed : List Nat),
      threadRev.Nodup → (∀ i ∈ threadRev, i ∈ visited) →
      ((bfsLoop parse msgs rootId fuel queue visited threadRev parts
        processed).1).Nodup := by
  intro fuel
  induction fuel with
  | zero =>
    intro queue visited threadRev parts processed hn hv
    simpa [bfsLoop] using hn
  | succ fuel ih =>
    intro queue visited threadRev parts processed hn hv
    match queue with
    | [] => simpa [bfsLoop] using hn
    | c :: rest =>
      unfold bfsLoop
      split
      · exact ih rest visited threadRev parts processed hn hv
      · rename_i hguard
        split
        · exact ih rest visited threadRev parts processed hn hv
        · dsimp only
          split
          · simpa using hn
          · split
            · exact ih rest visited threadRev _ processed hn hv
            · refine ih _ _ (c :: threadRev) _ _ ?_ ?_
              · refine List.nodup_cons.mpr ⟨?_, hn⟩
                intro hc
                have hcv : ¬(visited.contains c = true) := by
                  simp only [Bool.or_eq_true, not_or] at hguard
                  exact hguard.2
                exact hcv (by simpa using hv c hc)
              · intro j hj
                rcases List.mem_cons.mp hj with rfl | hj
                · exact List.mem_cons_self j visited
                · exact List.mem_cons_of_mem c (hv j hj)

theorem filterMap_lookup_ids (msgs : List Msg) :
    ∀ l : List Nat, ((l.filterMap (lookupLast msgs)).map (·.id)) =
      l.filter (fun i => (lookupLast msgs i).isSome) := by
  intro l
  induction l with
  | nil => rfl
  | cons i t ih =>
    cases hl : lookupLast msgs i with
    | none => simp [List.filterMap_cons, hl, List.filter_cons, ih]
    | some m =>
      simp [List.filterMap_cons, hl, List.filter_cons, ih, lookupLast_id hl]

/-- Disjointness of the id sets of two threads. -/
def DisjointIds (t1 t2 : List Msg) : Prop :=
  ∀ i, i ∈ t1.map (·.id) → i ∉ t2.map (·.id)

theorem DisjointIds.symm {t1 t2 : List Msg} (h : DisjointIds t1 t2) :
    DisjointIds t2 t1 :=
  fun i hi2 hi1 => h i hi1 hi2

theorem runRoot_thread_props (parse : String → Option Int) (msgs : List Msg)
    (proc : List Nat) (r : Nat) :
    ((((List.insertionSort (· ≤ ·) (runRoot parse msgs proc r).1).filterMap
      (lookupLast msgs)).map (·.id)).Nodup) ∧
    (∀ i ∈ ((List.insertionSort (· ≤ ·) (runRoot parse msgs proc r).1).filterMap
      (lookupLast msgs)).map (·.id), Reach msgs r i) := by
  have hnod : ((runRoot parse msgs proc r).1).Nodup :=
    bfsLoop_nodup parse msgs r (bfsFuel msgs) [r] [] [] [] proc
      List.nodup_nil (by simp)
  have hreach : ∀ i ∈ (runRoot parse msgs proc r).1, Reach msgs r i := by
    refine bfsLoop_reach parse msgs r (bfsFuel msgs) [r] [] [] [] proc ?_ (by simp)
    intro q hq
    rw [List.mem_singleton] at hq
    subst hq
    exact Reach.refl
  rw [filterMap_lookup_ids]
  constructor
  · exact ((List.perm_insertionSort _ _).nodup_iff.mpr hnod).filter _
  · intro i hi
    exact hreach i ((List.mem_insertionSort _).mp (List.mem_of_mem_filter hi))

theorem buildThreadsGo_disjoint (parse : String → Option Int) (msgs : List Msg) :
    ∀ (roots processed : List Nat) (acc : List (List Msg)),
      roots.Nodup →
      (∀ r ∈ roots, parentR msgs r = none) →
      (∀ t ∈ acc, ∃ r, r ∉ roots ∧ parentR msgs r = none ∧
        ∀ i ∈ t.map (·.id), Reach msgs r i) →
      List.Pairwise DisjointIds acc →
      (∀ t ∈ acc, (t.map (·.id)).Nodup) →
      List.Pairwise DisjointIds (buildThreadsGo parse msgs roots processed acc) ∧
      ∀ t ∈ buildThreadsGo parse msgs roots processed acc,
        (t.map (·.id)).Nodup := by
  intro roots
  induction roots with
  | nil =>
    intro processed acc _ _ _ hpw hnd
    constructor
    · simp only [buildThreadsGo]
      rw [List.pairwise_reverse]
      exact hpw.imp (fun {a b} hab => hab.symm)
    · intro t ht
      exact hnd t (by simpa [buildThreadsGo] using ht)
  | cons r rs ih =>
    intro processed acc hnodup hroots hacc hpw hnd
    have hnr : r ∉ rs := (List.nodup_cons.mp hnodup).1
    have hns : rs.Nodup := (List.nodup_cons.mp hnodup).2
    have hroots' : ∀ r' ∈ rs, parentR msgs r' = none :=
      fun r' h => hroots r' (List.mem_cons_of_mem r h)
    have hacc' : ∀ t ∈ acc, ∃ r', r' ∉ rs ∧ parentR msgs r' = none ∧
        ∀ i ∈ t.map (·.id), Reach msgs r' i := by
      intro t ht
      obtain ⟨r', hr', hpn, hre⟩ := hacc t ht
      exact ⟨r', fun h => hr' (List.mem_cons_of_mem r h), hpn, hre⟩
    unfold buildThreadsGo
    split
    · exact ih processed acc hns hroots' hacc' hpw hnd
    · dsimp only
      split
      · exact ih _ acc hns hroots' hacc' hpw hnd
      · obtain ⟨hTnd, hTreach⟩ := runRoot_thread_props parse msgs processed r
        refine ih _ _ hns hroots' ?_ ?_ ?_
        · intro t ht
          rcases List.mem_cons.mp ht with rfl | ht
          · exact ⟨r, hnr, hroots r (List.mem_cons_self r rs), hTreach⟩
          · exact hacc' t ht
        · refine List.pairwise_cons.mpr ⟨?_, hpw⟩
          intro t ht i hiT hit
          obtain ⟨r', hr', hpn', hre'⟩ := hacc t ht
          have h1 : Reach msgs r i := hTreach i hiT
          have h2 : Reach msgs r' i := hre' i hit
          have heq : r = r' :=
            reach_unique (hroots r (List.mem_cons_self r rs)) hpn' h1 h2
          exact hr' (heq ▸ List.mem_cons_self r rs)
        · intro t ht
          rcases List.mem_cons.mp ht with rfl | ht
          · exact hTnd
          · exact hnd t ht

/-- C10: the threads constructed by one run are pairwise disjoint on message
ids and each thread contains every id at most once; chunks are produced one
per thread, so no message contributes to more than one emitted chunk. -/
theorem C10_threads_disjoint (parse : String → Option Int) (tth idth : Int)
    (msgs : List Msg) :
    List.Pairwise DisjointIds
      (buildThreads parse (runPasses parse tth idth msgs).msgs) ∧
    ∀ t ∈ buildThreads parse (runPasses parse tth idth msgs).msgs,
      (t.map (·.id)).Nodup := by
  unfold buildThreads
  exact buildThreadsGo_disjoint parse _ (rootIds parse _) [] []
    (rootIds_nodup parse _) (fun r h => root_parentR_none h)
    (by simp) List.Pairwise.nil (by simp)
